import Mathlib

/-
Verification of the text-layout utilities of the satori repository
(src/src/utils.ts and the rendering pipeline file).

Modelling conventions:
* JS strings are lists of Unicode scalar values (`Str := List Char`);
  indices are code-unit positions of the abstract character sequence.
* JS numbers are modelled as exact rationals (`ℚ`).  `NaN`/`Infinity` and
  binary-float rounding are outside the model; the JS literal `0.9` is the
  rational 9/10 and `Math.PI` is the exact rational value of the IEEE-754
  double stored in `Math.PI`.
* JS `Map` objects are insertion-ordered association lists; JS plain objects
  with non-numeric string keys are the same.
* Code that can throw is modelled in `Except Unit`; `Except.error ()` is a
  thrown exception, `Except.ok` a normal return.
* External collaborators that are not part of this repository
  (`Intl.Segmenter`, the `linebreak` npm package, the language detector) are
  parameters of the embedded functions; theorems quantify over them under the
  interface guarantees the spec states for them.
-/

namespace Satori

/-- JS strings, modelled as lists of Unicode scalar values. -/
abbrev Str := List Char

/-- Concatenation of a list of strings (JS `array.join('')`). -/
def concatAll : List Str → Str
  | [] => []
  | s :: rest => s ++ concatAll rest

/-- The non-breaking space character U+00A0. -/
def nbspChar : Char := '\u00a0'

/-- JS stringification of `undefined`: the string produced when template
interpolation is applied to `array.pop()` of an empty array, or when
`String.prototype.indexOf` receives `undefined`. -/
def jsUndefinedStr : Str := "undefined".data

/-- The JS whitespace class used by `String.prototype.trim`, by scalar value:
TAB LF VT FF CR SPACE NBSP OGHAM-SP, U+2000–U+200A, LS PS NNBSP MMSP
IDEOGRAPHIC-SPACE BOM. -/
def jsIsWhite (c : Char) : Bool :=
  c.toNat = 32 || (9 ≤ c.toNat && c.toNat ≤ 13) || c.toNat = 160 ||
  c.toNat = 5760 || (8192 ≤ c.toNat && c.toNat ≤ 8202) || c.toNat = 8232 ||
  c.toNat = 8233 || c.toNat = 8239 || c.toNat = 8287 || c.toNat = 12288 ||
  c.toNat = 65279

/-- JS `String.prototype.trim`: strip `jsIsWhite` characters from both ends. -/
def jsTrim (s : Str) : Str :=
  ((s.dropWhile jsIsWhite).reverse.dropWhile jsIsWhite).reverse

/-- The JS regex class `\w` = `[A-Za-z0-9_]`, by scalar value. -/
def isWordChar (c : Char) : Bool :=
  (97 ≤ c.toNat && c.toNat ≤ 122) || (65 ≤ c.toNat && c.toNat ≤ 90) ||
  (48 ≤ c.toNat && c.toNat ≤ 57) || c.toNat = 95

/-- First index (if any) at which `pat` occurs as a contiguous sublist of `l`. -/
def findSubIdx (pat : Str) : Str → Option Nat
  | [] => if pat = [] then some 0 else none
  | c :: rest =>
    if pat.isPrefixOf (c :: rest) then some 0
    else (findSubIdx pat rest).map (· + 1)

/-- JS `content.indexOf(pat, start)` restricted to found/not-found:
first occurrence of `pat` at a position `≥ start`. -/
def findIdxFrom (pat content : Str) (start : Nat) : Option Nat :=
  (findSubIdx pat (content.drop start)).map (· + start)

/-- JS `content.indexOf(pat, start)` with its `-1` not-found convention. -/
def jsIndexOf (pat content : Str) (start : Nat) : Int :=
  match findIdxFrom pat content start with
  | some j => (j : Int)
  | none => -1

/-- JS `s.slice(a, b)` / `s.substring(a, b)` for `a ≤ b` natural positions
(clamped at the end of the string, empty when `b ≤ a`). -/
def sliceChars (s : Str) (a b : Nat) : Str :=
  (s.drop a).take (b - a)

/-- JS `content.replace(/\[s\]/g, '')`: remove every occurrence of the
three-character token `[s]`, scanning left to right without overlap. -/
def stripSTag : Str → Str
  | '[' :: 's' :: ']' :: rest => stripSTag rest
  | c :: rest => c :: stripSTag rest
  | [] => []

/-- JS `content.replace(/\[e\]/g, '')`: remove every occurrence of `[e]`. -/
def stripETag : Str → Str
  | '[' :: 'e' :: ']' :: rest => stripETag rest
  | c :: rest => c :: stripETag rest
  | [] => []

/-- The sentinel stripping in `splitByBreakOpportunities`
(src/src/utils.ts lines 299-301): strip `[s]`, then strip `[e]`. -/
def stripSE (content : Str) : Str :=
  stripETag (stripSTag content)

/-- JS `Array.from(new Set(xs))`: keep the first occurrence of each element,
in encounter order.  `seen` accumulates the elements already emitted. -/
def jsSetDedupGo (seen : List Str) : List Str → List Str
  | [] => []
  | x :: xs =>
    if x ∈ seen then jsSetDedupGo seen xs
    else x :: jsSetDedupGo (x :: seen) xs

/-- JS `Array.from(new Set(xs))`. -/
def jsSetDedup (xs : List Str) : List Str :=
  jsSetDedupGo [] xs

/-! ### Segmentation service (`segment`, src/src/utils.ts lines 167-214) -/

/-- The non-breaking-space merge loop of `segment` (src/src/utils.ts lines
195-211).  `isFirst` is `i == 0`, `out` is the `output` array with the most
recent push first, and the third argument is `segmented.drop i`.  A lone
`" "` token is combined with the popped previous output token
(`''` when `i == 0`) and the next input token (`''` when `i` is last, which
also ends the loop because `i += 2` passes the end). -/
def segmentMergeGo (isFirst : Bool) (out : List Str) : List Str → List Str
  | [] => out.reverse
  | s :: rest =>
    if s = [nbspChar] then
      let previousWord : Str := if isFirst then [] else out.headD jsUndefinedStr
      let out1 : List Str := if isFirst then out else out.tail
      match rest with
      | [] => ((previousWord ++ [nbspChar] ++ []) :: out1).reverse
      | nextWord :: rest2 =>
        segmentMergeGo false ((previousWord ++ [nbspChar] ++ nextWord) :: out1) rest2
    else
      segmentMergeGo false (s :: out) rest

inductive Granularity
  | word
  | grapheme

/-- `segment(content, granularity, locale)` (src/src/utils.ts lines 167-214).
The process-wide `Intl.Segmenter` instances are external; their token
sequences for the given content are supplied as `wordSegs`/`graphemeSegs`.
Grapheme mode returns the grapheme segmentation unchanged; word mode applies
the non-breaking-space merge pass to the word segmentation. -/
def segment (wordSegs graphemeSegs : List Str) : Granularity → List Str
  | .grapheme => graphemeSegs
  | .word => segmentMergeGo true [] wordSegs

/-! ### Line-break resolver (`splitByBreakOpportunities`,
src/src/utils.ts lines 284-324) -/

/-- The slicing loop of `splitByBreakOpportunities` (lines 309-321): given the
`(position, required)` pairs successively returned by the external
`LineBreaker`, emit `content.slice(last, position)` for each break. -/
def sliceWords (stripped : Str) : Nat → List (Nat × Bool) → List Str
  | _, [] => []
  | last, (pos, _) :: rest => sliceChars stripped last pos :: sliceWords stripped pos rest

/-- `splitByBreakOpportunities(content, wordBreak)` (src/src/utils.ts lines
284-324).  `graphemeSegFn`/`wordSegFn` stand for `segment(·, 'grapheme')` /
`segment(·, 'word')` and `breaker` for the external `linebreak` package
(the list of `nextBreak()` results on its input).  `break-all` and `keep-all`
return segmentations of the raw content with no required-break flags; the
default mode strips the `[s]`/`[e]` sentinels, slices the stripped content at
the breaker's positions and records each break's `required` flag after an
initial `false`. -/
def splitByBreakOpportunities (graphemeSegFn wordSegFn : Str → List Str)
    (breaker : Str → List (Nat × Bool)) (content : Str) (wordBreak : Str) :
    List Str × List Bool :=
  if wordBreak = "break-all".data then (graphemeSegFn content, [])
  else if wordBreak = "keep-all".data then (wordSegFn content, [])
  else
    let contentWithoutStartEnd := stripSE content
    let bks := breaker contentWithoutStartEnd
    (sliceWords contentWithoutStartEnd 0 bks, false :: bks.map Prod.snd)

/-- A concrete instance of the external `linebreak` package (UAX #14) valid on
text whose only break-class characters are plain spaces and `\n`: there is a
break opportunity after every space run (at a position whose predecessor is a
space and which is not itself a space), a mandatory break after `\n`, and a
final break at the end of the text. -/
def asciiBreaker (s : Str) : List (Nat × Bool) :=
  (List.range s.length).filterMap fun j =>
    let i := j + 1
    if i = s.length ∨ (s.getD (i - 1) ' ' = ' ' ∧ s.getD i ' ' ≠ ' ') ∨
        s.getD (i - 1) ' ' = '\n' then
      some (i, decide (s.getD (i - 1) ' ' = '\n'))
    else none

/-! ### Bounded LRU cache (`createLRU`, src/src/utils.ts lines 235-262) -/

/-- Whether a JS `Map` modelled as an ordered association list has the key. -/
def mapHas {α : Type} (k : Str) (m : List (Str × α)) : Bool :=
  m.any fun p => decide (p.1 = k)

/-- JS `map.get(key)` as an option. -/
def mapFind {α : Type} (k : Str) (m : List (Str × α)) : Option α :=
  (m.find? fun p => decide (p.1 = k)).map Prod.snd

/-- JS `map.set(key, value)`: update in place when the key is present
(insertion order is kept), otherwise append as the newest entry. -/
def mapSet {α : Type} (k : Str) (v : α) (m : List (Str × α)) : List (Str × α) :=
  if mapHas k m then m.map fun p => if p.1 = k then (k, v) else p
  else m ++ [(k, v)]

/-- JS `map.delete(key)`. -/
def mapDelete {α : Type} (k : Str) (m : List (Str × α)) : List (Str × α) :=
  m.filter fun p => decide (p.1 ≠ k)

/-- The `set` closure of `createLRU` (src/src/utils.ts lines 237-243): when
`store.size >= max`, delete the first (oldest) key — `store.keys().next().value`
is `undefined` on an empty store and deleting it is a no-op — then `Map.set`. -/
def lruSet {α : Type} (max : Nat) (k : Str) (v : α) (store : List (Str × α)) :
    List (Str × α) :=
  let store1 :=
    if store.length ≥ max then
      match store with
      | [] => store
      | (k0, _) :: _ => mapDelete k0 store
    else store
  mapSet k v store1

/-- The `get` closure of `createLRU` (src/src/utils.ts lines 244-252): on a
hit, delete and re-insert the entry (making it newest) and return the value;
on a miss return `undefined` and leave the store unchanged. -/
def lruGet {α : Type} (k : Str) (store : List (Str × α)) :
    Option α × List (Str × α) :=
  if mapHas k store then
    match mapFind k store with
    | some v => (some v, mapDelete k store ++ [(k, v)])
    | none => (none, store)
  else (none, store)

/-- One operation against a `createLRU` cache. -/
inductive LRUOp (α : Type)
  | set (k : Str) (v : α)
  | get (k : Str)
  | clear

/-- Apply one `createLRU` operation to the backing store. -/
def lruApply {α : Type} (max : Nat) (store : List (Str × α)) :
    LRUOp α → List (Str × α)
  | .set k v => lruSet max k v store
  | .get k => (lruGet k store).2
  | .clear => []

/-- Run a sequence of operations against a fresh `createLRU(max)` cache. -/
def lruRun {α : Type} (max : Nat) (ops : List (LRUOp α)) : List (Str × α) :=
  ops.foldl (lruApply max) []

/-! ### CSS dimension/angle resolvers (`lengthToNumber`, `calcDegree`,
src/src/utils.ts lines 57-121) -/

/-- Numeric value of a digit string. -/
def digitsToNat (ds : Str) : Nat :=
  ds.foldl (fun acc c => acc * 10 + (c.toNat - 48)) 0

/-- Parse an unsigned CSS numeric literal prefix (`digits`, `digits.digits`,
or `.digits`), returning its value and the unconsumed suffix. -/
def parseUnsigned (s : Str) : Option (ℚ × Str) :=
  let ip := s.takeWhile Char.isDigit
  let r1 := s.dropWhile Char.isDigit
  match r1 with
  | '.' :: r2 =>
    let fp := r2.takeWhile Char.isDigit
    let r3 := r2.dropWhile Char.isDigit
    if fp = [] then none
    else some ((digitsToNat ip : ℚ) + (digitsToNat fp : ℚ) / ((10 : ℚ) ^ fp.length), r3)
  | _ => if ip = [] then none else some ((digitsToNat ip : ℚ), r1)

/-- Parse an optionally signed CSS numeric literal prefix. -/
def parseNumPart (s : Str) : Option (ℚ × Str) :=
  match s with
  | '-' :: rest => (parseUnsigned rest).map fun p => (-p.1, p.2)
  | '+' :: rest => parseUnsigned rest
  | _ => parseUnsigned s

inductive CssType
  | number
  | length
  | angle
  | percentage
  deriving DecidableEq

structure CssDim where
  value : ℚ
  unit : Str
  type : CssType
  deriving DecidableEq

/-- CSS length units recognised by the dimension parser. -/
def cssLengthUnits : List Str :=
  ["px", "em", "rem", "vw", "vh", "ex", "ch", "cm", "mm", "in", "pt", "pc",
    "q", "vmin", "vmax"].map String.data

/-- CSS angle units recognised by the dimension parser. -/
def cssAngleUnits : List Str :=
  ["deg", "rad", "grad", "turn"].map String.data

/-- Modelled from the spec: the vendored CSS dimension parser
(`src/vendor/parse-css-dimension`, imported by src/src/utils.ts but not
present under src/).  Per spec §4.1–§4.2 it parses a numeric value followed
by an optional unit and classifies the result as a bare number, a length, an
angle or a percentage; any other input is a parse failure (`none`), which the
constructor signals by throwing. -/
def cssDimension (s : Str) : Option CssDim :=
  match parseNumPart s with
  | none => none
  | some (q, rest) =>
    if rest = [] then some ⟨q, [], .number⟩
    else if rest = ['%'] then some ⟨q, ['%'], .percentage⟩
    else if rest ∈ cssLengthUnits then some ⟨q, rest, .length⟩
    else if rest ∈ cssAngleUnits then some ⟨q, rest, .angle⟩
    else none

/-- Whether a digit string is the canonical JS integer part: `0`, or a
nonzero leading digit followed by digits. -/
def isCanonIntPart : Str → Bool
  | [] => false
  | ['0'] => true
  | c :: rest => decide (49 ≤ c.toNat) && decide (c.toNat ≤ 57) && rest.all Char.isDigit

/-- Whether an unsigned string is the canonical JS decimal rendering of its
value: canonical integer part, optionally a fraction with no trailing zero. -/
def canonUnsigned (s : Str) : Bool :=
  let ip := s.takeWhile fun c => decide (c ≠ '.')
  let rest := s.dropWhile fun c => decide (c ≠ '.')
  match rest with
  | [] => isCanonIntPart ip
  | '.' :: fp =>
    isCanonIntPart ip && decide (fp ≠ []) && fp.all Char.isDigit &&
      decide (fp.getLast? ≠ some '0')
  | _ => false

/-- The check `length === String(+length)` (src/src/utils.ts line 74) over the
rational abstraction of JS numbers: a string passes exactly when it is the
canonical decimal rendering of a number (`-0`, exponent renderings,
`NaN`/`Infinity` are outside the model), and then evaluates to that number. -/
def canonNum (s : Str) : Option ℚ :=
  let ok : Bool :=
    match s with
    | '-' :: u => canonUnsigned u && decide (u ≠ ['0'])
    | _ => canonUnsigned s
  if ok then
    match parseNumPart s with
    | some (q, []) => some q
    | _ => none
  else none

/-- JS truncation toward zero, the numeric effect of `~~`. -/
def jsTrunc (q : ℚ) : Int :=
  if q < 0 then -((-q).floor) else q.floor

/-- Wrap an integer into the signed 32-bit range, the `ToInt32` step of `~~`. -/
def toInt32 (n : Int) : Int :=
  (n + 2 ^ 31) % 2 ^ 32 - 2 ^ 31

/-- JS `~~q`: truncate toward zero, then wrap to 32 bits. -/
def jsToInt32 (q : ℚ) : Int :=
  toInt32 (jsTrunc q)

/-- The exact rational value of the IEEE-754 double `Math.PI`. -/
def jsMathPi : ℚ := 884279719003555 / 281474976710656

/-- The unit switch of `calcDegree` (src/src/utils.ts lines 111-120); the JS
literal `0.9` is the rational 9/10 in this model.  Units other than the four
angle units fall through the switch and return `undefined`. -/
def calcDegreeCore (d : CssDim) : Option ℚ :=
  if d.unit = "deg".data then some d.value
  else if d.unit = "rad".data then some (d.value * 180 / jsMathPi)
  else if d.unit = "turn".data then some (d.value * 360)
  else if d.unit = "grad".data then some (9 / 10 * d.value)
  else none

/-- `calcDegree(deg)` (src/src/utils.ts lines 108-121).  The function has no
try/catch, so a failing `new CssDimension(deg)` propagates as an exception
(`Except.error`). -/
def calcDegree (deg : Str) : Except Unit (Option ℚ) :=
  match cssDimension deg with
  | none => Except.error ()
  | some parsed => Except.ok (calcDegreeCore parsed)

/-- A `string | number` input of `lengthToNumber`. -/
inductive LenInput
  | num (q : ℚ)
  | str (s : Str)

/-- The body of the `try` block of `lengthToNumber` (src/src/utils.ts lines
67-102) for a string input: trim; reject strings containing a space, slash,
`(` or comma; return a canonical bare numeral directly; otherwise parse as a
CSS dimension (whose constructor may throw) and dispatch on its type and
unit.  `vpW`/`vpH` are `inheritedStyle._viewportWidth/_viewportHeight`. -/
def lengthToNumberTry (len0 : Str) (baseFontSize baseLength vpW vpH : ℚ)
    (percentage : Bool) : Except Unit (Option ℚ) :=
  let len := jsTrim len0
  if len.any (fun c => c == ' ' || c == '/' || c == '(' || c == ',') then
    Except.ok none
  else
    match canonNum len with
    | some q => Except.ok (some q)
    | none =>
      match cssDimension len with
      | none => Except.error ()
      | some parsed =>
        if parsed.type = .length then
          Except.ok (some
            (if parsed.unit = "em".data then parsed.value * baseFontSize
            else if parsed.unit = "rem".data then parsed.value * 16
            else if parsed.unit = "vw".data then (jsToInt32 (parsed.value * vpW / 100) : ℚ)
            else if parsed.unit = "vh".data then (jsToInt32 (parsed.value * vpH / 100) : ℚ)
            else parsed.value))
        else if parsed.type = .angle then calcDegree len
        else if parsed.type = .percentage then
          if percentage then Except.ok (some (parsed.value / 100 * baseLength))
          else Except.ok none
        else Except.ok none

/-- `lengthToNumber(length, baseFontSize, baseLength, inheritedStyle,
percentage)` (src/src/utils.ts lines 57-106): numbers are returned unchanged;
for strings the `try` body runs and any exception is swallowed into the
`undefined` return (`none`). -/
def lengthToNumber (len : LenInput) (baseFontSize baseLength vpW vpH : ℚ)
    (percentage : Bool) : Option ℚ :=
  match len with
  | .num q => some q
  | .str s =>
    match lengthToNumberTry s baseFontSize baseLength vpW vpH percentage with
    | .ok v => v
    | .error _ => none

/-- Refinement target transcribed from claim C7's own words (not from the
source): no trimming is mentioned, and `vw`/`vh` use the mathematical floor. -/
def lengthToNumberClaimed (len : LenInput) (baseFontSize baseLength vpW vpH : ℚ)
    (percentage : Bool) : Option ℚ :=
  match len with
  | .num q => some q
  | .str s =>
    if s.any (fun c => c == ' ' || c == '/' || c == '(' || c == ',') then none
    else
      match canonNum s with
      | some q => some q
      | none =>
        match cssDimension s with
        | none => none
        | some parsed =>
          if parsed.type = .length then
            some
              (if parsed.unit = "em".data then parsed.value * baseFontSize
              else if parsed.unit = "rem".data then parsed.value * 16
              else if parsed.unit = "vw".data then ((parsed.value * vpW / 100).floor : ℚ)
              else if parsed.unit = "vh".data then ((parsed.value * vpH / 100).floor : ℚ)
              else parsed.value)
          else if parsed.type = .angle then
            match calcDegree s with
            | .ok o => o
            | .error _ => none
          else if parsed.type = .percentage then
            if percentage then some (parsed.value / 100 * baseLength)
            else none
          else none

/-- Claim C7 amended to the code's behaviour: the string is trimmed first, and
`vw`/`vh` apply JS `~~` (truncation toward zero with 32-bit wrap) instead of
the floor. -/
def lengthToNumberAmendedSpec (len : LenInput) (baseFontSize baseLength vpW vpH : ℚ)
    (percentage : Bool) : Option ℚ :=
  match len with
  | .num q => some q
  | .str s0 =>
    let s := jsTrim s0
    if s.any (fun c => c == ' ' || c == '/' || c == '(' || c == ',') then none
    else
      match canonNum s with
      | some q => some q
      | none =>
        match cssDimension s with
        | none => none
        | some parsed =>
          if parsed.type = .length then
            some
              (if parsed.unit = "em".data then parsed.value * baseFontSize
              else if parsed.unit = "rem".data then parsed.value * 16
              else if parsed.unit = "vw".data then (jsToInt32 (parsed.value * vpW / 100) : ℚ)
              else if parsed.unit = "vh".data then (jsToInt32 (parsed.value * vpH / 100) : ℚ)
              else parsed.value)
          else if parsed.type = .angle then
            match calcDegree s with
            | .ok o => o
            | .error _ => none
          else if parsed.type = .percentage then
            if percentage then some (parsed.value / 100 * baseLength)
            else none
          else none

/-! ### Highlight span tracker (`addHighlights`, src/src/utils.ts lines
360-475) -/

/-- The start sentinel `[s]`. -/
def sTag : Str := "[s]".data

/-- The end sentinel `[e]`. -/
def eTag : Str := "[e]".data

/-- A highlighted section as recorded by `addHighlights` (lines 369-392):
`startIdx` is the position of `[s]`, `endIdx` is the position one past `[e]`,
`text` is the trimmed inner text. -/
structure HlSection where
  startIdx : Nat
  endIdx : Nat
  text : Str
  deriving DecidableEq

/-- The section-scanning loop of `addHighlights` (lines 374-392), with a fuel
argument for structural termination.  Each iteration moves `searchStart` past
the matched `[e]`, i.e. forward by at least three positions, so
`content.length + 1` fuel always exceeds the iteration count. -/
def findSectionsFuel (content : Str) : Nat → Nat → List HlSection
  | 0, _ => []
  | fuel + 1, searchStart =>
    match findIdxFrom sTag content searchStart with
    | none => []
    | some startIdx =>
      match findIdxFrom eTag content startIdx with
      | none => []
      | some endIdx =>
        ⟨startIdx, endIdx + 3, jsTrim (sliceChars content (startIdx + 3) endIdx)⟩ ::
          findSectionsFuel content fuel (endIdx + 3)

/-- All highlighted sections of a content string, in order. -/
def findSections (content : Str) : List HlSection :=
  findSectionsFuel content (content.length + 1) 0

/-- The first (unanchored) match of `/(\w+)(\W*)/` on a token (line 399-409):
`none` when the token has no word character; otherwise the leading word-run
from the first word character and the following non-word run.  Any prefix
before the first word character and anything after the matched non-word run
are not part of the match. -/
def jsMatchWordPunct (word : Str) : Option (Str × Str) :=
  match word.dropWhile (fun c => !isWordChar c) with
  | [] => none
  | r :: rest =>
    some ((r :: rest).takeWhile isWordChar,
      ((r :: rest).dropWhile isWordChar).takeWhile fun c => !isWordChar c)

/-- The per-section body of `addHighlights` (lines 424-465) once a token's
match position `w` falls inside section `sec`.  `split` is
`splitByBreakOpportunities(·, wordBreak).words`.  When the section's
re-tokenization is empty, JS reads `highlightWords[0]` and
`highlightWords[length-1]` as `undefined`: `indexOf(undefined)` searches the
string `"undefined"`, and reaching the end-alignment comparison throws a
`TypeError` (`none`) on `undefined.length`. -/
def sectionProcess (content : Str) (split : Str → List Str) (sec : HlSection)
    (w : Nat) (core punct word : Str) : Option Str :=
  let hs := sec.startIdx + 3
  match split sec.text with
  | [] =>
    if (w : Int) = jsIndexOf jsUndefinedStr content hs then
      some (sTag ++ core ++ punct)
    else none
  | h0 :: t0 =>
    let lastTok := (h0 :: t0).getLast (List.cons_ne_nil h0 t0)
    if (w : Int) = jsIndexOf h0 content hs then some (sTag ++ core ++ punct)
    else if (w + core.length : Int) = jsIndexOf lastTok content hs + (lastTok.length : Int) ∨
        (w + (jsTrim word).length : Int) = jsIndexOf lastTok content hs + (lastTok.length : Int) then
      some (core ++ eTag ++ punct)
    else some (core ++ punct)

/-- One iteration of the token loop of `addHighlights` (lines 402-472):
returns the emitted token and the updated forward-search cursor, or `none`
for the (unreachable with real tokenizers) `TypeError` of `sectionProcess`.
A token without word characters passes through with the cursor unchanged; a
token whose word-run is not found from the cursor passes through and advances
the cursor by the token's length; otherwise the cursor moves to the end of
the match and the first section containing the match position handles the
token. -/
def addHighlightsStep (content : Str) (secs : List HlSection)
    (split : Str → List Str) (cur : Nat) (word : Str) : Option (Str × Nat) :=
  match jsMatchWordPunct word with
  | none => some (word, cur)
  | some (core, punct) =>
    match findIdxFrom core content cur with
    | none => some (word, cur + word.length)
    | some w =>
      let cur2 := w + core.length
      match secs.find? (fun sec =>
          decide (sec.startIdx + 3 ≤ w) && decide (w < sec.endIdx - 3)) with
      | none => some (word, cur2)
      | some sec =>
        match sectionProcess content split sec w core punct word with
        | none => none
        | some tok => some (tok, cur2)

/-- The token loop of `addHighlights`, emitting into `acc` (reversed). -/
def addHighlightsLoop (content : Str) (secs : List HlSection)
    (split : Str → List Str) : List Str → Nat → List Str → Option (List Str)
  | [], _, acc => some acc.reverse
  | word :: rest, cur, acc =>
    match addHighlightsStep content secs split cur word with
    | none => none
    | some (tok, cur2) => addHighlightsLoop content secs split rest cur2 (tok :: acc)

/-- `addHighlights(originalContent, words, wordBreak)` (src/src/utils.ts lines
360-475).  `split` stands for `splitByBreakOpportunities(·, wordBreak).words`,
which the function applies to each matched section's inner text. -/
def addHighlights (split : Str → List Str) (originalContent : Str)
    (words : List Str) : Option (List Str) :=
  addHighlightsLoop originalContent (findSections originalContent) split words 0 []

/-- The `words` component of normal-mode `splitByBreakOpportunities` with a
given breaker, as passed to `addHighlights`. -/
def splitWordsOf (breaker : Str → List (Nat × Bool)) (wordBreak : Str)
    (t : Str) : List Str :=
  (splitByBreakOpportunities (fun _ => []) (fun _ => []) breaker t wordBreak).1

/-! ### Asset-resolution bucketing (`toSvg`, pipeline file lines 88-120) -/

/-- The language code with per-grapheme buckets. -/
def emojiCode : Str := "emoji".data

/-- One step of the `langaugeCodes` accumulation (pipeline file lines 95-103):
for code `"emoji"` push the grapheme as a new entry of the code's array;
for any other code concatenate it onto entry 0.  A fresh code starts from the
empty array. -/
def addToBucket (acc : List (Str × List Str)) (code seg : Str) :
    List (Str × List Str) :=
  if acc.any (fun p => decide (p.1 = code)) then
    acc.map fun p =>
      if p.1 = code then
        (p.1, if code = emojiCode then p.2 ++ [seg] else (p.2.headD [] ++ seg) :: p.2.tail)
      else p
  else acc ++ [(code, [seg])]

/-- The `langaugeCodes` record built from the deduplicated missing graphemes
(pipeline file lines 94-103), as an insertion-ordered association list. -/
def buildLanguageBuckets (detect : Str → Str) (segs : List Str) :
    List (Str × List Str) :=
  segs.foldl (fun acc seg => addToBucket acc (detect seg) seg) []

/-- The `(code, text)` pairs passed to `options.loadAdditionalAsset`, one call
per bucket entry (pipeline file lines 108-120). -/
def loaderCalls (detect : Str → Str) (segs : List Str) : List (Str × Str) :=
  (buildLanguageBuckets detect segs).flatMap fun p => p.2.map fun t => (p.1, t)

/-- The full asset-resolution grouping on a grapheme list: deduplicate
(`Array.from(new Set(...))`, line 90-92), bucket by detected code, and list
the loader calls. -/
def assetCalls (detect : Str → Str) (graphemes : List Str) : List (Str × Str) :=
  loaderCalls detect (jsSetDedup graphemes)

/-- The detector instance used by the spec's asset-grouping example. -/
def detectDemo (s : Str) : Str :=
  if s = "漢".data ∨ s = "字".data then "ja".data
  else if s = "😀".data then emojiCode
  else "unknown".data

/-! ## Helper lemmas -/

theorem concatAll_append (a b : List Str) :
    concatAll (a ++ b) = concatAll a ++ concatAll b := by
  induction a with
  | nil => rfl
  | cons x xs ih => simp [concatAll, ih]

theorem concatAll_eq_nil (l : List Str) (h : concatAll l = [])
    (hne : ∀ s ∈ l, s ≠ []) : l = [] := by
  cases l with
  | nil => rfl
  | cons s rest =>
    exfalso
    have hs : s ≠ [] := hne s (by simp)
    have hx : s ++ concatAll rest = [] := h
    exact hs (List.append_eq_nil.mp hx).1

theorem segmentMergeGo_cons_nbsp_last (isFirst : Bool) (out : List Str) :
    segmentMergeGo isFirst out [[nbspChar]] =
      (((if isFirst then ([] : Str) else out.headD jsUndefinedStr) ++ [nbspChar] ++ []) ::
        (if isFirst then out else out.tail)).reverse := by
  simp [segmentMergeGo]

theorem segmentMergeGo_cons_nbsp (isFirst : Bool) (out : List Str) (nw : Str)
    (rest2 : List Str) :
    segmentMergeGo isFirst out ([nbspChar] :: nw :: rest2) =
      segmentMergeGo false
        (((if isFirst then ([] : Str) else out.headD jsUndefinedStr) ++ [nbspChar] ++ nw) ::
          (if isFirst then out else out.tail)) rest2 := by
  simp [segmentMergeGo]

theorem segmentMergeGo_cons_other (s : Str) (hs : s ≠ [nbspChar]) (isFirst : Bool)
    (out : List Str) (rest : List Str) :
    segmentMergeGo isFirst out (s :: rest) = segmentMergeGo false (s :: out) rest := by
  cases rest <;> simp [segmentMergeGo, hs]

theorem merge_out_concat (isFirst : Bool) (out : List Str)
    (h1 : isFirst = true → out = []) (h2 : isFirst = false → out ≠ []) (x : Str) :
    concatAll ((((if isFirst then ([] : Str) else out.headD jsUndefinedStr) ++ x) ::
      (if isFirst then out else out.tail)).reverse) =
      concatAll out.reverse ++ x := by
  cases isFirst with
  | true =>
    have hout := h1 rfl
    subst hout
    simp [concatAll, concatAll_append]
  | false =>
    obtain ⟨o, otl, rfl⟩ := List.exists_cons_of_ne_nil (h2 rfl)
    simp [concatAll, concatAll_append, List.headD]

theorem segmentMergeGo_concat :
    ∀ (n : Nat) (l : List Str), l.length ≤ n → ∀ (isFirst : Bool) (out : List Str),
      (isFirst = true → out = []) → (isFirst = false → out ≠ []) →
      concatAll (segmentMergeGo isFirst out l) =
        concatAll out.reverse ++ concatAll l := by
  intro n
  induction n with
  | zero =>
    intro l hl isFirst out h1 h2
    have hnil : l = [] := List.length_eq_zero.mp (Nat.le_zero.mp hl)
    subst hnil
    simp [segmentMergeGo, concatAll]
  | succ n ih =>
    intro l hl isFirst out h1 h2
    cases l with
    | nil => simp [segmentMergeGo, concatAll]
    | cons s rest =>
      by_cases hnb : s = [nbspChar]
      · subst hnb
        cases rest with
        | nil =>
          rw [segmentMergeGo_cons_nbsp_last]
          have := merge_out_concat isFirst out h1 h2 ([nbspChar] ++ [])
          simp only [← List.append_assoc] at this
          rw [this]
          simp [concatAll]
        | cons nw rest2 =>
          have hlen : rest2.length ≤ n := by
            simp only [List.length_cons] at hl
            omega
          rw [segmentMergeGo_cons_nbsp]
          rw [ih rest2 hlen false _ (fun h => nomatch h) (fun _ => List.cons_ne_nil _ _)]
          have := merge_out_concat isFirst out h1 h2 ([nbspChar] ++ nw)
          simp only [← List.append_assoc] at this
          rw [this]
          simp [concatAll, List.append_assoc]
      · have hlen : rest.length ≤ n := by
          simp only [List.length_cons] at hl
          omega
        rw [segmentMergeGo_cons_other s hnb]
        rw [ih rest hlen false _ (fun h => nomatch h) (fun _ => List.cons_ne_nil _ _)]
        simp [concatAll, concatAll_append, List.append_assoc]

/-! ## C1 -/

/-- C1: for every input string, both granularities and any locale (the
external segmenter outputs are quantified over as token sequences that
partition the content into nonempty tokens), `segment` returns an ordered
lossless partition: concatenating its tokens reproduces the input exactly —
also through the word-mode pass that merges a lone non-breaking-space token
with its neighbours, a missing neighbour contributing the empty string — and
the empty input yields the empty sequence. -/
theorem segment_lossless_partition (content : Str) (wordSegs graphemeSegs : List Str)
    (g : Granularity)
    (hw : concatAll wordSegs = content) (hg : concatAll graphemeSegs = content)
    (hwne : ∀ s ∈ wordSegs, s ≠ []) (hgne : ∀ s ∈ graphemeSegs, s ≠ []) :
    concatAll (segment wordSegs graphemeSegs g) = content ∧
      (content = [] → segment wordSegs graphemeSegs g = []) := by
  cases g with
  | grapheme =>
    refine ⟨hg, fun hc => ?_⟩
    have hnil : graphemeSegs = [] := concatAll_eq_nil _ (by rw [hg]; exact hc) hgne
    simpa [segment] using hnil
  | word =>
    have hmain : concatAll (segmentMergeGo true [] wordSegs) = concatAll wordSegs := by
      have := segmentMergeGo_concat wordSegs.length wordSegs (Nat.le_refl _) true []
        (fun _ => rfl) (fun h => nomatch h)
      simpa [concatAll] using this
    constructor
    · simpa [segment, hw] using hmain
    · intro hc
      have hnil : wordSegs = [] := concatAll_eq_nil _ (by rw [hw]; exact hc) hwne
      subst hnil
      simp [segment, segmentMergeGo]

/-- Witness for C1 at the spec's own example `"a b"`. -/
theorem segment_lossless_partition_witness :
    concatAll (segment ["a".data, [nbspChar], "b".data] [['a'], [nbspChar], ['b']] .word) =
      ('a' :: nbspChar :: ['b']) ∧
      ('a' :: nbspChar :: ['b'] = ([] : Str) →
        segment ["a".data, [nbspChar], "b".data] [['a'], [nbspChar], ['b']] .word = []) :=
  segment_lossless_partition ('a' :: nbspChar :: ['b']) _ _ _
    (by decide) (by decide) (by decide) (by decide)

/-! ## C2 -/

theorem sliceChars_append_drop (s : Str) (a b : Nat) (hab : a ≤ b) :
    sliceChars s a b ++ s.drop b = s.drop a := by
  have h2 : (s.drop a).drop (b - a) = s.drop b := by
    rw [List.drop_drop]
    congr 1
    omega
  rw [sliceChars, ← h2, List.take_append_drop]

theorem sliceWords_concat (stripped : Str) :
    ∀ (bks : List (Nat × Bool)) (last : Nat),
      List.Chain' (· ≤ ·) (last :: bks.map Prod.fst) →
      (last :: bks.map Prod.fst).getLast? = some stripped.length →
      concatAll (sliceWords stripped last bks) = stripped.drop last := by
  intro bks
  induction bks with
  | nil =>
    intro last hch hlast
    have hl : last = stripped.length := by simpa using hlast
    subst hl
    simp [sliceWords, concatAll]
  | cons pb rest ih =>
    obtain ⟨p, r⟩ := pb
    intro last hch hlast
    have hle : last ≤ p := (List.chain'_cons.mp hch).1
    have hch2 : List.Chain' (· ≤ ·) (p :: rest.map Prod.fst) :=
      (List.chain'_cons.mp hch).2
    have hlast2 : (p :: rest.map Prod.fst).getLast? = some stripped.length := by
      simpa using hlast
    simp only [sliceWords, concatAll]
    rw [ih p hch2 hlast2]
    exact sliceChars_append_drop stripped last p hle

theorem sliceWords_length (stripped : Str) :
    ∀ (bks : List (Nat × Bool)) (last : Nat),
      (sliceWords stripped last bks).length = bks.length := by
  intro bks
  induction bks with
  | nil => intro last; rfl
  | cons pb rest ih =>
    obtain ⟨p, r⟩ := pb
    intro last
    simp [sliceWords, ih]

/-- C2: in `normal` word-break mode `splitByBreakOpportunities` first removes
the `[s]` and `[e]` sentinels, then slices the stripped content at the
external breaker's positions.  Under the breaker's interface guarantees
(positions are monotone and the final break is at the end of the text, with
no break reported only for empty text — both UAX #14 properties of the
`linebreak` package), the words concatenate to the stripped content, there is
one word per break, `requiredBreaks` has length `words + 1`, index 0 is
`false`, and index `i+1` is exactly the breaker's mandatory-break flag for
the break after word `i`. -/
theorem splitByBreakOpportunities_normal (graphemeSegFn wordSegFn : Str → List Str)
    (breaker : Str → List (Nat × Bool)) (content : Str)
    (hch : List.Chain' (· ≤ ·) (0 :: (breaker (stripSE content)).map Prod.fst))
    (hlast : (0 :: (breaker (stripSE content)).map Prod.fst).getLast? =
      some (stripSE content).length) :
    concatAll (splitByBreakOpportunities graphemeSegFn wordSegFn breaker content
        "normal".data).1 = stripSE content ∧
      (splitByBreakOpportunities graphemeSegFn wordSegFn breaker content
        "normal".data).1.length = (breaker (stripSE content)).length ∧
      (splitByBreakOpportunities graphemeSegFn wordSegFn breaker content
        "normal".data).2.length =
        (splitByBreakOpportunities graphemeSegFn wordSegFn breaker content
          "normal".data).1.length + 1 ∧
      (splitByBreakOpportunities graphemeSegFn wordSegFn breaker content
        "normal".data).2.head? = some false ∧
      ∀ i, (splitByBreakOpportunities graphemeSegFn wordSegFn breaker content
        "normal".data).2.get? (i + 1) =
        ((breaker (stripSE content)).get? i).map Prod.snd := by
  have hne1 : ("normal".data : Str) ≠ "break-all".data := by decide
  have hne2 : ("normal".data : Str) ≠ "keep-all".data := by decide
  simp only [splitByBreakOpportunities, if_neg hne1, if_neg hne2]
  refine ⟨?_, ?_, ?_, ?_, ?_⟩
  · have := sliceWords_concat (stripSE content) (breaker (stripSE content)) 0 hch hlast
    simpa using this
  · exact sliceWords_length _ _ _
  · simp [sliceWords_length]
  · rfl
  · intro i
    simp [List.get?_map]

/-- Witness for C2 at the content `"ab[s]cd[e]"` with a breaker reporting an
allowed break after position 2 and a mandatory final break at position 4. -/
theorem splitByBreakOpportunities_normal_witness :
    concatAll (splitByBreakOpportunities (fun _ => []) (fun _ => [])
        (fun _ => [(2, false), (4, true)]) "ab[s]cd[e]".data "normal".data).1 =
      stripSE "ab[s]cd[e]".data ∧
      (splitByBreakOpportunities (fun _ => []) (fun _ => [])
        (fun _ => [(2, false), (4, true)]) "ab[s]cd[e]".data "normal".data).1.length =
        ((fun (_ : Str) => [(2, false), (4, true)]) (stripSE "ab[s]cd[e]".data)).length ∧
      (splitByBreakOpportunities (fun _ => []) (fun _ => [])
        (fun _ => [(2, false), (4, true)]) "ab[s]cd[e]".data "normal".data).2.length =
        (splitByBreakOpportunities (fun _ => []) (fun _ => [])
          (fun _ => [(2, false), (4, true)]) "ab[s]cd[e]".data "normal".data).1.length + 1 ∧
      (splitByBreakOpportunities (fun _ => []) (fun _ => [])
        (fun _ => [(2, false), (4, true)]) "ab[s]cd[e]".data "normal".data).2.head? =
        some false ∧
      ∀ i, (splitByBreakOpportunities (fun _ => []) (fun _ => [])
        (fun _ => [(2, false), (4, true)]) "ab[s]cd[e]".data "normal".data).2.get? (i + 1) =
        (((fun (_ : Str) => [(2, false), (4, true)]) (stripSE "ab[s]cd[e]".data)).get? i).map
          Prod.snd :=
  splitByBreakOpportunities_normal (fun _ => []) (fun _ => [])
    (fun _ => [(2, false), (4, true)]) "ab[s]cd[e]".data
    (by simp [List.chain'_cons]) (by decide)

/-! ## C3 -/

/-- C3: the TextRun `"The [s]quick brown[e] fox"`, tokenized with word-break
mode `normal` (the external UAX #14 breaker instantiated on this
space-separated ASCII text as `asciiBreaker`) and passed through
`addHighlights`, yields exactly `["The ", "[s]quick ", "brown[e] ", "fox"]`:
exactly one token is prefixed with the start sentinel and its word run is
`"quick"`; exactly one token carries the end sentinel, placed after its word
run `"brown"` (before the trailing punctuation); no other token carries a
sentinel. -/
theorem addHighlights_roundtrip :
    addHighlights (splitWordsOf asciiBreaker "normal".data)
        "The [s]quick brown[e] fox".data
        ((splitByBreakOpportunities (fun _ => []) (fun _ => []) asciiBreaker
          "The [s]quick brown[e] fox".data "normal".data).1) =
      some ["The ".data, sTag ++ "quick ".data, "brown".data ++ eTag ++ " ".data,
        "fox".data] ∧
      ["The ".data, sTag ++ "quick ".data, "brown".data ++ eTag ++ " ".data,
        "fox".data].countP (fun t => sTag.isPrefixOf t) = 1 ∧
      ["The ".data, sTag ++ "quick ".data, "brown".data ++ eTag ++ " ".data,
        "fox".data].countP (fun t => (findSubIdx eTag t).isSome) = 1 ∧
      ["The ".data, sTag ++ "quick ".data, "brown".data ++ eTag ++ " ".data,
        "fox".data].countP
          (fun t => (findSubIdx sTag t).isSome || (findSubIdx eTag t).isSome) = 2 := by
  decide

/-! ## C4 -/

/-- C4 (amended): a token whose leading word-character run cannot be located
in the original content at or after the forward-search cursor is emitted
unchanged and no exception arises, and the cursor is advanced by exactly the
token's length.  (The claim's further assertion that the cursor is "not
advanced past any boundary" fails: that advance can cross a
highlight-section boundary, see the counterexample.) -/
theorem addHighlights_notfound_passthrough (content : Str) (secs : List HlSection)
    (split : Str → List Str) (cur : Nat) (word core punct : Str)
    (hm : jsMatchWordPunct word = some (core, punct))
    (hnf : findIdxFrom core content cur = none) :
    addHighlightsStep content secs split cur word = some (word, cur + word.length) := by
  simp [addHighlightsStep, hm, hnf]

/-- Witness for C4: the token `"ZZZZZZZZ"` is not found in `"ab[s]cd[e]"`. -/
theorem addHighlights_notfound_passthrough_witness :
    addHighlightsStep "ab[s]cd[e]".data (findSections "ab[s]cd[e]".data)
      (fun s => [s]) 0 "ZZZZZZZZ".data =
      some ("ZZZZZZZZ".data, 0 + "ZZZZZZZZ".data.length) :=
  addHighlights_notfound_passthrough "ab[s]cd[e]".data (findSections "ab[s]cd[e]".data)
    (fun s => [s]) 0 "ZZZZZZZZ".data "ZZZZZZZZ".data [] (by decide) (by decide)

/-- Counterexample to C4 as stated: in `"ab[s]cd[e]"` the only highlight
section starts at index 2, so its inner boundary is at index 5; the
not-found token `"ZZZZZZZZ"` moves the cursor from 0 (before the boundary)
to 8 (past the boundary), contradicting "the cursor is not advanced past any
boundary by that token". -/
theorem addHighlights_notfound_counterexample :
    findSections "ab[s]cd[e]".data = [⟨2, 10, "cd".data⟩] ∧
    addHighlightsStep "ab[s]cd[e]".data (findSections "ab[s]cd[e]".data)
      (fun s => [s]) 0 "ZZZZZZZZ".data = some ("ZZZZZZZZ".data, 8) ∧
    (0 : Nat) ≤ 2 + 3 ∧ 2 + 3 < 8 := by decide

/-! ## C5 -/

/-- C5: in the per-section body of `addHighlights` the start-alignment check
is ordered before the end-alignment check, so a token that satisfies both —
a highlighted span collapsing into a single output token — receives only the
start sentinel prefix, never the end sentinel. -/
theorem sectionProcess_start_before_end (content : Str) (split : Str → List Str)
    (sec : HlSection) (w : Nat) (core punct word : Str) (h0 : Str) (t0 : List Str)
    (hsplit : split sec.text = h0 :: t0)
    (hstart : (w : Int) = jsIndexOf h0 content (sec.startIdx + 3))
    (hend : (w + core.length : Int) =
        jsIndexOf ((h0 :: t0).getLast (List.cons_ne_nil h0 t0)) content
            (sec.startIdx + 3) +
          (((h0 :: t0).getLast (List.cons_ne_nil h0 t0)).length : Int) ∨
      (w + (jsTrim word).length : Int) =
        jsIndexOf ((h0 :: t0).getLast (List.cons_ne_nil h0 t0)) content
            (sec.startIdx + 3) +
          (((h0 :: t0).getLast (List.cons_ne_nil h0 t0)).length : Int)) :
    sectionProcess content split sec w core punct word = some (sTag ++ core ++ punct) := by
  simp only [sectionProcess, hsplit]
  rw [if_pos hstart]

/-- Witness for C5: in `"The [s]quick[e] fox"` the highlighted span `"quick"`
re-tokenizes to the single token `"quick"`, whose start and end alignments
both hold for the output token at match position 7. -/
theorem sectionProcess_start_before_end_witness :
    sectionProcess "The [s]quick[e] fox".data
      (splitWordsOf asciiBreaker "normal".data) ⟨4, 15, "quick".data⟩ 7
      "quick".data " ".data "quick ".data =
      some (sTag ++ "quick".data ++ " ".data) :=
  sectionProcess_start_before_end "The [s]quick[e] fox".data
    (splitWordsOf asciiBreaker "normal".data) ⟨4, 15, "quick".data⟩ 7
    "quick".data " ".data "quick ".data "quick".data [] (by decide) (by decide)
    (Or.inl (by decide))

/-! ## C6 -/

theorem mapSet_length {α : Type} (k : Str) (v : α) (m : List (Str × α)) :
    (mapSet k v m).length ≤ m.length + 1 := by
  unfold mapSet
  split
  · simp
  · simp

theorem mapHas_of_find {α : Type} (k : Str) (v : α) (store : List (Str × α))
    (h : mapFind k store = some v) : mapHas k store = true := by
  unfold mapFind at h
  unfold mapHas
  cases hf : store.find? (fun p => decide (p.1 = k)) with
  | none => rw [hf] at h; simp at h
  | some p =>
    have hm := List.mem_of_find?_eq_some hf
    have hp := List.find?_some hf
    exact List.any_eq_true.mpr ⟨p, hm, hp⟩

theorem mapDelete_length_lt {α : Type} (k : Str) (store : List (Str × α))
    (h : mapHas k store = true) : (mapDelete k store).length < store.length := by
  induction store with
  | nil => simp [mapHas] at h
  | cons p t ih =>
    by_cases hp : p.1 = k
    · have hle := List.length_filter_le (fun q : Str × α => decide (q.1 ≠ k)) t
      simp only [mapDelete, List.filter_cons, hp]
      simp [mapDelete] at hle ⊢
      omega
    · have h2 : mapHas k t = true := by
        simp only [mapHas, List.any_cons] at h
        rcases Bool.or_eq_true_iff.mp h with h1 | h1
        · exact absurd (of_decide_eq_true h1) hp
        · exact h1
      have := ih h2
      simp only [mapDelete, List.filter_cons] at this ⊢
      have hd : decide (p.1 ≠ k) = true := by simp [hp]
      rw [hd]
      simp [mapDelete] at this ⊢
      omega

theorem lruSet_length {α : Type} (max : Nat) (hmax : 1 ≤ max) (k : Str) (v : α)
    (store : List (Str × α)) (hlen : store.length ≤ max) :
    (lruSet max k v store).length ≤ max := by
  unfold lruSet
  by_cases hge : store.length ≥ max
  · cases store with
    | nil =>
      simp [mapSet, mapHas]
      omega
    | cons p t =>
      obtain ⟨k0, v0⟩ := p
      simp only [if_pos hge]
      have h1 : mapHas k0 ((k0, v0) :: t) = true := by simp [mapHas]
      have h2 := mapDelete_length_lt k0 ((k0, v0) :: t) h1
      have h3 := mapSet_length k v (mapDelete k0 ((k0, v0) :: t))
      omega
  · have h3 := mapSet_length k v store
    simp only [if_neg hge]
    omega

theorem lruGet_length {α : Type} (k : Str) (store : List (Str × α)) :
    ((lruGet k store).2).length ≤ store.length := by
  unfold lruGet
  by_cases h : mapHas k store = true
  · rw [if_pos h]
    cases hf : mapFind k store with
    | none => simp
    | some v =>
      have h2 := mapDelete_length_lt k store h
      simp only []
      simp [List.length_append]
      omega
  · simp only [Bool.not_eq_true] at h
    simp [h]

theorem lruRun_go_length {α : Type} (max : Nat) (hmax : 1 ≤ max) :
    ∀ (ops : List (LRUOp α)) (store : List (Str × α)), store.length ≤ max →
      (ops.foldl (lruApply max) store).length ≤ max := by
  intro ops
  induction ops with
  | nil => intro store h; simpa using h
  | cons op rest ih =>
    intro store h
    simp only [List.foldl_cons]
    apply ih
    cases op with
    | set k v => exact lruSet_length max hmax k v store h
    | get k => exact le_trans (lruGet_length k store) h
    | clear => simpa [lruApply] using Nat.zero_le max

/-- C6 (amended): for every `createLRU(max)` cache with `max ≥ 1` and every
operation sequence the store size never exceeds `max`; `get` on an absent
key returns the absent sentinel and leaves the store unchanged; a successful
`get` refreshes the key to most-recent; a `set` of a NEW key appends it as
most-recent; but `set` evicts the oldest entry whenever the store is at
capacity — even when the key is already present, in which case the updated
key also keeps its old recency (the claim's "evicts exactly when the key is
new" and "insertion refreshes recency" fail, see the counterexample).  The
claim's concrete scenarios hold: inserting `max+1` distinct keys evicts the
first-inserted never-re-accessed key, and a `get` on a key before the
`(max+1)`-th insert protects it. -/
theorem createLRU_behaviour :
    (∀ (α : Type) (max : Nat), 1 ≤ max → ∀ ops : List (LRUOp α),
      (lruRun max ops).length ≤ max) ∧
    (∀ (α : Type) (k : Str) (store : List (Str × α)), mapHas k store = false →
      lruGet k store = (none, store)) ∧
    (∀ (α : Type) (k : Str) (v : α) (store : List (Str × α)),
      mapFind k store = some v →
      lruGet k store = (some v, mapDelete k store ++ [(k, v)])) ∧
    (∀ (α : Type) (max : Nat) (k : Str) (v : α) (k0 : Str) (v0 : α)
      (t : List (Str × α)), ((k0, v0) :: t).length ≥ max →
      lruSet max k v ((k0, v0) :: t) = mapSet k v (mapDelete k0 ((k0, v0) :: t))) ∧
    (∀ (α : Type) (k : Str) (v : α) (m : List (Str × α)), mapHas k m = false →
      mapSet k v m = m ++ [(k, v)]) ∧
    lruRun (α := Nat) 2 [.set "a".data 0, .set "b".data 1, .set "c".data 2] =
      [("b".data, 1), ("c".data, 2)] ∧
    lruRun (α := Nat) 2 [.set "a".data 0, .set "b".data 1, .get "a".data,
      .set "c".data 2] = [("a".data, 0), ("c".data, 2)] := by
  refine ⟨?_, ?_, ?_, ?_, ?_, by decide, by decide⟩
  · intro α max hmax ops
    exact lruRun_go_length max hmax ops [] (by simpa using hmax)
  · intro α k store h
    simp [lruGet, h]
  · intro α k v store h
    simp [lruGet, mapHas_of_find k v store h, h]
  · intro α max k v k0 v0 t hge
    simp only [lruSet]
    rw [if_pos hge]
  · intro α k v m h
    simp [mapSet, h]

/-- Witness for C6 at concrete instances discharging each hypothesis. -/
theorem createLRU_behaviour_witness :
    (lruRun (α := Nat) 2 [.set "x".data 0, .set "y".data 1, .set "z".data 2]).length ≤ 2 ∧
    lruGet "y".data ([("x".data, 0)] : List (Str × Nat)) = (none, [("x".data, 0)]) ∧
    lruGet "x".data ([("x".data, 0), ("y".data, 1)] : List (Str × Nat)) =
      (some 0, mapDelete "x".data [("x".data, 0), ("y".data, 1)] ++ [("x".data, 0)]) ∧
    lruSet 2 "y".data 9 ([("x".data, 0), ("y".data, 1)] : List (Str × Nat)) =
      mapSet "y".data 9 (mapDelete "x".data [("x".data, 0), ("y".data, 1)]) ∧
    mapSet "z".data 5 ([("x".data, 0)] : List (Str × Nat)) =
      [("x".data, 0)] ++ [("z".data, 5)] :=
  ⟨createLRU_behaviour.1 Nat 2 (by decide) _,
    createLRU_behaviour.2.1 Nat "y".data [("x".data, 0)] (by decide),
    createLRU_behaviour.2.2.1 Nat "x".data 0 [("x".data, 0), ("y".data, 1)] (by decide),
    createLRU_behaviour.2.2.2.1 Nat 2 "y".data 9 "x".data 0 [("y".data, 1)] (by decide),
    createLRU_behaviour.2.2.2.2.1 Nat "z".data 5 [("x".data, 0)] (by decide)⟩

/-- Counterexample to C6 as stated: with capacity 3, after inserting keys a,
b, c, a `set` on the EXISTING key b evicts the least-recently-used entry a —
the claim allows eviction only when the key is new — and does not refresh
b's recency (b stays in the oldest slot, ahead of c). -/
theorem createLRU_counterexample :
    lruRun (α := Nat) 3 [.set "a".data 0, .set "b".data 1, .set "c".data 2,
      .set "b".data 9] = [("b".data, 9), ("c".data, 2)] ∧
    mapFind "a".data (lruRun (α := Nat) 3 [.set "a".data 0, .set "b".data 1,
      .set "c".data 2, .set "b".data 9]) = none ∧
    (lruRun (α := Nat) 3 [.set "a".data 0, .set "b".data 1, .set "c".data 2,
      .set "b".data 9]).length = 2 := by
  decide

/-! ## C7 -/

/-- C7 (amended): `lengthToNumber` resolves exactly as the claim describes
except that (1) the string is trimmed before the space/slash/paren/comma
rejection and all later steps, and (2) `vw`/`vh` apply JS `~~` (truncation
toward zero with 32-bit wrap) rather than the mathematical floor: the
function coincides everywhere with the amended specification function. -/
theorem lengthToNumber_matches_amended (len : LenInput) (bf bl vw vh : ℚ)
    (pct : Bool) :
    lengthToNumber len bf bl vw vh pct =
      lengthToNumberAmendedSpec len bf bl vw vh pct := by
  cases len with
  | num q => rfl
  | str s =>
    simp only [lengthToNumber, lengthToNumberTry, lengthToNumberAmendedSpec]
    by_cases hg :
        ((jsTrim s).any fun c => c == ' ' || c == '/' || c == '(' || c == ',') = true
    · simp [hg]
    · simp only [Bool.not_eq_true] at hg
      simp only [hg, Bool.false_eq_true, if_false]
      cases hc : canonNum (jsTrim s) with
      | some q => simp
      | none =>
        cases hd : cssDimension (jsTrim s) with
        | none => simp
        | some parsed =>
          by_cases ht : parsed.type = .length
          · simp [ht]
          · by_cases ha : parsed.type = .angle
            · simp only [ht, ha, if_false, if_true]
              cases hcd : calcDegree (jsTrim s) <;> simp
            · by_cases hp : parsed.type = .percentage
              · cases pct <;> simp [ht, ha, hp]
              · simp [ht, ha, hp]

/-- Counterexample to C7 as stated: `"-1.5vw"` with viewport width 100 should
give `floor(-1.5) = -2` per the claim, but the code's `~~` gives `-1`; and
`" 16px "` contains spaces, so the claim calls it unresolved, but the code
trims first and resolves it to 16. -/
theorem lengthToNumber_claim_counterexample :
    lengthToNumberClaimed (.str "-1.5vw".data) 0 0 100 0 false = some (-2) ∧
    lengthToNumber (.str "-1.5vw".data) 0 0 100 0 false = some (-1) ∧
    lengthToNumberClaimed (.str " 16px ".data) 10 0 0 0 false = none ∧
    lengthToNumber (.str " 16px ".data) 10 0 0 0 false = some 16 := by
  refine ⟨?_, ?_, ?_, ?_⟩ <;> with_unfolding_all rfl

/-! ## C8 -/

theorem canonNum_parse {s : Str} {q : ℚ} (h : canonNum s = some q) :
    cssDimension s ≠ none := by
  cases hp : parseNumPart s with
  | none =>
    exfalso
    unfold canonNum at h
    rw [hp] at h
    split at h <;> simp_all
  | some pr =>
    obtain ⟨q2, rest⟩ := pr
    cases rest with
    | nil =>
      unfold cssDimension
      rw [hp]
      simp
    | cons c cs =>
      exfalso
      unfold canonNum at h
      rw [hp] at h
      split at h <;> simp_all

/-- C8 (amended): `lengthToNumber` never raises — every dimension/angle parse
failure inside it (the `CssDimension` constructor throwing, including an
unknown unit) is swallowed by its try/catch and yields the unresolved value —
and `calcDegree` returns normally (possibly `undefined`) whenever its input
parses as a CSS dimension; but `calcDegree` called directly on a string that
fails to parse propagates the exception (the claim's "calcDegree never
raises" fails, see the counterexample). -/
theorem parse_failure_handling :
    (∀ (s : Str) (bf bl vw vh : ℚ) (p : Bool), cssDimension (jsTrim s) = none →
      lengthToNumber (.str s) bf bl vw vh p = none) ∧
    (∀ s : Str, cssDimension s = none → calcDegree s = .error ()) ∧
    (∀ (s : Str) (d : CssDim), cssDimension s = some d →
      calcDegree s = .ok (calcDegreeCore d)) := by
  refine ⟨?_, ?_, ?_⟩
  · intro s bf bl vw vh p hd
    simp only [lengthToNumber, lengthToNumberTry]
    by_cases hg :
        ((jsTrim s).any fun c => c == ' ' || c == '/' || c == '(' || c == ',') = true
    · simp [hg]
    · simp only [Bool.not_eq_true] at hg
      simp only [hg, Bool.false_eq_true, if_false]
      cases hc : canonNum (jsTrim s) with
      | some q => exact absurd hd (canonNum_parse hc)
      | none => simp [hd]
  · intro s h
    simp [calcDegree, h]
  · intro s d h
    simp [calcDegree, h]

/-- Witness for C8 at `"foo"` (parse failure) and `"10deg"` (angle parse). -/
theorem parse_failure_handling_witness :
    lengthToNumber (.str "foo".data) 1 1 1 1 false = none ∧
    calcDegree "foo".data = .error () ∧
    calcDegree "10deg".data = .ok (calcDegreeCore ⟨10, "deg".data, .angle⟩) :=
  ⟨parse_failure_handling.1 "foo".data 1 1 1 1 false (by with_unfolding_all rfl),
    parse_failure_handling.2.1 "foo".data (by with_unfolding_all rfl),
    parse_failure_handling.2.2 "10deg".data ⟨10, "deg".data, .angle⟩
      (by with_unfolding_all rfl)⟩

/-- Counterexample to C8 as stated: `calcDegree("abc")` raises — the
`CssDimension` constructor throws and `calcDegree` has no try/catch — instead
of returning the unresolved value to the caller. -/
theorem calcDegree_throws_counterexample : calcDegree "abc".data = .error () := by
  rfl

/-! ## C9 -/

theorem mapFind_cons_pos {α : Type} (k : Str) (p : Str × α) (t : List (Str × α))
    (h : p.1 = k) : mapFind k (p :: t) = some p.2 := by
  unfold mapFind
  rw [List.find?_cons_of_pos t (by simpa using h)]
  rfl

theorem mapFind_cons_neg {α : Type} (k : Str) (p : Str × α) (t : List (Str × α))
    (h : ¬ p.1 = k) : mapFind k (p :: t) = mapFind k t := by
  unfold mapFind
  rw [List.find?_cons_of_neg t (by simpa using h)]

theorem mapFind_isSome_of_has {α : Type} (k : Str) (m : List (Str × α))
    (h : mapHas k m = true) : (mapFind k m).isSome := by
  induction m with
  | nil => simp [mapHas] at h
  | cons p t ih =>
    by_cases hp : p.1 = k
    · rw [mapFind_cons_pos k p t hp]
      rfl
    · rw [mapFind_cons_neg k p t hp]
      apply ih
      simp only [mapHas, List.any_cons, Bool.or_eq_true] at h
      rcases h with h | h
      · exact absurd (of_decide_eq_true h) hp
      · exact h

theorem mapFind_eq_none_of_not_has {α : Type} (k : Str) (m : List (Str × α))
    (h : mapHas k m = false) : mapFind k m = none := by
  induction m with
  | nil => rfl
  | cons p t ih =>
    simp only [mapHas, List.any_cons, Bool.or_eq_false_iff] at h
    have hp : ¬ p.1 = k := by
      have h1 := h.1
      simpa using h1
    rw [mapFind_cons_neg k p t hp]
    exact ih h.2

theorem mapFind_map_update (g : List Str → List Str) (code c : Str)
    (acc : List (Str × List Str)) :
    mapFind c (acc.map fun p => if p.1 = code then (p.1, g p.2) else p) =
      if c = code then (mapFind code acc).map g else mapFind c acc := by
  induction acc with
  | nil => by_cases hc : c = code <;> simp [mapFind, hc]
  | cons p t ih =>
    simp only [List.map_cons]
    by_cases hp : p.1 = code
    · rw [if_pos hp]
      by_cases hc : c = code
      · subst hc
        rw [mapFind_cons_pos c (p.1, g p.2) _ hp, if_pos rfl,
          mapFind_cons_pos c p t hp]
        rfl
      · have hpc : ¬ p.1 = c := by
          intro hx
          exact hc (hx ▸ hp)
        rw [mapFind_cons_neg c (p.1, g p.2) _ hpc, ih, if_neg hc, if_neg hc,
          mapFind_cons_neg c p t hpc]
    · rw [if_neg hp]
      by_cases hpc : p.1 = c
      · have hc : ¬ c = code := by
          intro hx
          exact hp (by rw [hpc, hx])
        rw [mapFind_cons_pos c p _ hpc, if_neg hc, mapFind_cons_pos c p t hpc]
      · by_cases hc : c = code
        · subst hc
          rw [mapFind_cons_neg c p _ hpc, ih, if_pos rfl, if_pos rfl,
            mapFind_cons_neg c p t hp]
        · rw [mapFind_cons_neg c p _ hpc, ih, if_neg hc, if_neg hc,
            mapFind_cons_neg c p t hpc]

theorem mapFind_append_single {α : Type} (k knew : Str) (v : α)
    (m : List (Str × α)) :
    mapFind k (m ++ [(knew, v)]) =
      (mapFind k m).or (if knew = k then some v else none) := by
  unfold mapFind
  rw [List.find?_append]
  cases hf : m.find? (fun p => decide (p.1 = k)) with
  | some p => simp
  | none =>
    by_cases hk : knew = k
    · rw [List.find?_cons_of_pos _ (by simpa using hk)]
      simp [hk]
    · rw [List.find?_cons_of_neg _ (by simpa using hk)]
      simp [hk]

theorem addToBucket_find (acc : List (Str × List Str)) (code seg c : Str) :
    mapFind c (addToBucket acc code seg) =
      if c = code then
        some (match mapFind code acc with
          | none => [seg]
          | some old =>
            if code = emojiCode then old ++ [seg]
            else (old.headD [] ++ seg) :: old.tail)
      else mapFind c acc := by
  by_cases hhas : (acc.any fun p => decide (p.1 = code)) = true
  · have hfind : (mapFind code acc).isSome := mapFind_isSome_of_has code acc hhas
    obtain ⟨old, hold⟩ := Option.isSome_iff_exists.mp hfind
    unfold addToBucket
    rw [if_pos hhas]
    rw [mapFind_map_update
      (fun l => if code = emojiCode then l ++ [seg] else (l.headD [] ++ seg) :: l.tail)
      code c acc]
    by_cases hc : c = code
    · rw [if_pos hc, if_pos hc, hold]
      rfl
    · rw [if_neg hc, if_neg hc]
  · have hhas2 : mapHas code acc = false := by
      unfold mapHas
      exact Bool.eq_false_iff.mpr hhas
    have hnone : mapFind code acc = none :=
      mapFind_eq_none_of_not_has code acc hhas2
    unfold addToBucket
    rw [if_neg hhas]
    rw [mapFind_append_single c code [seg] acc]
    by_cases hc : c = code
    · subst hc
      rw [hnone]
      simp
    · rw [if_neg (fun hx => hc hx.symm), if_neg hc]
      cases mapFind c acc <;> simp

theorem buildLanguageBuckets_find (detect : Str → Str) (segs : List Str) (c : Str) :
    mapFind c (buildLanguageBuckets detect segs) =
      (if segs.filter (fun s => decide (detect s = c)) = [] then none
       else some
         (if c = emojiCode then segs.filter (fun s => decide (detect s = c))
          else [concatAll (segs.filter fun s => decide (detect s = c))])) := by
  induction segs using List.reverseRecOn with
  | nil => simp [buildLanguageBuckets, mapFind]
  | append_singleton l a ih =>
    have hfold : buildLanguageBuckets detect (l ++ [a]) =
        addToBucket (buildLanguageBuckets detect l) (detect a) a := by
      simp [buildLanguageBuckets, List.foldl_append]
    rw [hfold, addToBucket_find]
    by_cases hc : c = detect a
    · subst hc
      rw [if_pos rfl, ih, List.filter_append]
      have hfa : (List.filter (fun s => decide (detect s = detect a)) [a]) = [a] := by
        simp
      rw [hfa]
      by_cases hfil : l.filter (fun s => decide (detect s = detect a)) = []
      · rw [hfil]
        simp [concatAll]
      · rw [if_neg hfil]
        have hne : ¬ (l.filter (fun s => decide (detect s = detect a)) ++ [a] = []) := by
          simp
        rw [if_neg hne]
        by_cases hem : detect a = emojiCode
        · simp [hem]
        · simp [hem, concatAll_append, concatAll]
    · rw [if_neg hc, ih, List.filter_append]
      have hda : ¬ detect a = c := fun hx => hc hx.symm
      have hfa : (List.filter (fun s => decide (detect s = c)) [a]) = [] := by
        simp [hda]
      rw [hfa, List.append_nil]

/-- C9: for every detector and grapheme list, the asset-resolution grouping
buckets each (deduplicated) grapheme by its detected code: the `"emoji"`
code keeps one bucket entry per grapheme in encounter order while every
other code concatenates its graphemes in encounter order into a single
entry; the loader is invoked exactly once per bucket entry; and the missing
graphemes 漢, 字, 😀 with 漢/字 → "ja", 😀 → "emoji" produce exactly the two
loader calls ("ja", "漢字") and ("emoji", "😀"). -/
theorem asset_bucketing :
    (∀ (detect : Str → Str) (segs : List Str) (c : Str),
      mapFind c (buildLanguageBuckets detect segs) =
        (if segs.filter (fun s => decide (detect s = c)) = [] then none
         else some
           (if c = emojiCode then segs.filter (fun s => decide (detect s = c))
            else [concatAll (segs.filter fun s => decide (detect s = c))]))) ∧
    (∀ (detect : Str → Str) (segs : List Str),
      (loaderCalls detect segs).length =
        ((buildLanguageBuckets detect segs).map fun p => p.2.length).sum) ∧
    assetCalls detectDemo ["漢".data, "字".data, "😀".data] =
      [("ja".data, "漢字".data), (emojiCode, "😀".data)] := by
  refine ⟨buildLanguageBuckets_find, ?_, by decide⟩
  intro detect segs
  simp [loaderCalls, Function.comp_def]

/-! ## C10 -/

theorem isPrefixOf_exists {l1 l2 : Str} (h : l1.isPrefixOf l2 = true) :
    ∃ t, l2 = l1 ++ t := by
  induction l1 generalizing l2 with
  | nil => exact ⟨l2, rfl⟩
  | cons c cs ih =>
    cases l2 with
    | nil => simp [List.isPrefixOf] at h
    | cons d ds =>
      simp only [List.isPrefixOf, Bool.and_eq_true] at h
      obtain ⟨t, ht⟩ := ih h.2
      have hcd : c = d := by simpa using h.1
      exact ⟨t, by rw [ht, hcd, List.cons_append]⟩

theorem findSubIdx_spec (pat : Str) (hne : pat ≠ []) :
    ∀ (l : Str) (j : Nat), findSubIdx pat l = some j →
      pat.isPrefixOf (l.drop j) = true ∧ j + pat.length ≤ l.length := by
  intro l
  induction l with
  | nil =>
    intro j h
    simp [findSubIdx, hne] at h
  | cons c rest ih =>
    intro j h
    unfold findSubIdx at h
    by_cases hp : pat.isPrefixOf (c :: rest) = true
    · rw [if_pos hp] at h
      have hj : j = 0 := (Option.some.inj h).symm
      subst hj
      refine ⟨by simpa using hp, ?_⟩
      obtain ⟨t, ht⟩ := isPrefixOf_exists hp
      simp [ht]
    · rw [if_neg hp] at h
      cases hj : findSubIdx pat rest with
      | none => rw [hj] at h; simp at h
      | some j2 =>
        rw [hj] at h
        simp at h
        obtain ⟨h1, h2⟩ := ih j2 hj
        subst h
        refine ⟨by simpa using h1, ?_⟩
        simp only [List.length_cons]
        omega

theorem findIdxFrom_spec (pat content : Str) (start idx : Nat)
    (hne : pat ≠ []) (h : findIdxFrom pat content start = some idx) :
    start ≤ idx ∧ pat.isPrefixOf (content.drop idx) = true ∧
      idx + pat.length ≤ content.length := by
  unfold findIdxFrom at h
  cases hj : findSubIdx pat (content.drop start) with
  | none => rw [hj] at h; simp at h
  | some j =>
    rw [hj] at h
    simp at h
    obtain ⟨h1, h2⟩ := findSubIdx_spec pat hne (content.drop start) j hj
    subst h
    have hplen : 1 ≤ pat.length := by
      cases pat with
      | nil => exact absurd rfl hne
      | cons _ _ => simp
    refine ⟨by omega, ?_, ?_⟩
    · rw [List.drop_drop] at h1
      rw [Nat.add_comm start j] at h1
      exact h1
    · have hlen : (content.drop start).length = content.length - start := by simp
      omega

theorem get_of_isPrefixOf {pat content : Str} {idx : Nat}
    (h : pat.isPrefixOf (content.drop idx) = true) (k : Nat) (hk : k < pat.length) :
    content.get? (idx + k) = pat.get? k := by
  obtain ⟨t, ht⟩ := isPrefixOf_exists h
  have h1 : (content.drop idx).get? k = content.get? (idx + k) :=
    List.get?_drop content idx k
  rw [← h1, ht, List.get?_append hk]

theorem findSectionsFuel_inv (content : Str) :
    ∀ (fuel s0 : Nat) (sec : HlSection), sec ∈ findSectionsFuel content fuel s0 →
      ∃ e, sec.endIdx = e + 3 ∧
        sTag.isPrefixOf (content.drop sec.startIdx) = true ∧
        eTag.isPrefixOf (content.drop e) = true ∧
        sec.startIdx + 3 ≤ e ∧ e + 3 ≤ content.length ∧
        sec.text = jsTrim (sliceChars content (sec.startIdx + 3) e) := by
  intro fuel
  induction fuel with
  | zero =>
    intro s0 sec h
    simp [findSectionsFuel] at h
  | succ fuel ih =>
    intro s0 sec h
    unfold findSectionsFuel at h
    cases hs : findIdxFrom sTag content s0 with
    | none => simp [hs] at h
    | some startIdx =>
      simp only [hs] at h
      cases he : findIdxFrom eTag content startIdx with
      | none => simp [he] at h
      | some endIdx =>
        simp only [he, List.mem_cons] at h
        rcases h with h | h
        · subst h
          obtain ⟨hs1, hs2, hs3⟩ :=
            findIdxFrom_spec sTag content s0 startIdx (by decide) hs
          obtain ⟨he1, he2, he3⟩ :=
            findIdxFrom_spec eTag content startIdx endIdx (by decide) he
          refine ⟨endIdx, rfl, hs2, he2, ?_, ?_, rfl⟩
          · show startIdx + 3 ≤ endIdx
            by_contra hlt
            push_neg at hlt
            have h1 := get_of_isPrefixOf hs2 1 (by decide)
            have h2 := get_of_isPrefixOf hs2 2 (by decide)
            have g0 := get_of_isPrefixOf he2 0 (by decide)
            have g1 := get_of_isPrefixOf he2 1 (by decide)
            simp only [Nat.add_zero] at g0
            have hcase : endIdx = startIdx ∨ endIdx = startIdx + 1 ∨
                endIdx = startIdx + 2 := by omega
            rcases hcase with hq | hq | hq
            · rw [hq] at g1
              exact absurd (h1.symm.trans g1) (by decide)
            · rw [hq] at g0
              exact absurd (h1.symm.trans g0) (by decide)
            · rw [hq] at g0
              exact absurd (h2.symm.trans g0) (by decide)
          · show endIdx + 3 ≤ content.length
            have h3 : eTag.length = 3 := by decide
            omega
        · exact ih (endIdx + 3) sec h

theorem findSectionsFuel_of_late (content : Str) (f s0 : Nat)
    (h : content.length < s0 + 3) : findSectionsFuel content f s0 = [] := by
  cases f with
  | zero => rfl
  | succ f =>
    unfold findSectionsFuel
    cases hs : findIdxFrom sTag content s0 with
    | none => rfl
    | some startIdx =>
      exfalso
      obtain ⟨h1, _, h3⟩ := findIdxFrom_spec sTag content s0 startIdx (by decide) hs
      have hlen : sTag.length = 3 := by decide
      omega

/-- The section scan is insensitive to its fuel as soon as the fuel covers the
remaining text: the cursor advances by at least 3 per iteration, so the
fuelled loop equals the unbounded JS loop. -/
theorem findSectionsFuel_stable (content : Str) :
    ∀ (f1 f2 s0 : Nat),
      content.length ≤ 3 * f1 + s0 → content.length ≤ 3 * f2 + s0 →
      findSectionsFuel content f1 s0 = findSectionsFuel content f2 s0 := by
  intro f1
  induction f1 with
  | zero =>
    intro f2 s0 h1 h2
    rw [findSectionsFuel_of_late content f2 s0 (by omega)]
    rfl
  | succ f1 ih =>
    intro f2 s0 h1 h2
    cases f2 with
    | zero =>
      rw [findSectionsFuel_of_late content (f1 + 1) s0 (by omega)]
      rfl
    | succ f2 =>
      unfold findSectionsFuel
      cases hs : findIdxFrom sTag content s0 with
      | none => simp [hs]
      | some startIdx =>
        simp only [hs]
        cases he : findIdxFrom eTag content startIdx with
        | none => rfl
        | some endIdx =>
          simp only [he]
          obtain ⟨hs1, _, hs3⟩ :=
            findIdxFrom_spec sTag content s0 startIdx (by decide) hs
          obtain ⟨he1, _, he3⟩ :=
            findIdxFrom_spec eTag content startIdx endIdx (by decide) he
          have hlen : sTag.length = 3 := by decide
          congr 1
          exact ih f2 (endIdx + 3) (by omega) (by omega)

/-- `findSections` computes the full (fuel-free) section scan: any fuel at
least a third of the content length gives the same result. -/
theorem findSections_fuel_free (content : Str) (f : Nat)
    (h : content.length ≤ 3 * f) :
    findSections content = findSectionsFuel content f 0 := by
  unfold findSections
  exact findSectionsFuel_stable content (content.length + 1) f 0 (by omega) (by omega)

theorem jsTrim_eq_nil (s : Str) (h : jsTrim s = []) : ∀ c ∈ s, jsIsWhite c = true := by
  unfold jsTrim at h
  have h1 : (s.dropWhile jsIsWhite).reverse.dropWhile jsIsWhite = [] := by
    simpa using h
  have h2 : ∀ c ∈ (s.dropWhile jsIsWhite).reverse, jsIsWhite c = true :=
    List.dropWhile_eq_nil_iff.mp h1
  have h3 : ∀ c ∈ s.dropWhile jsIsWhite, jsIsWhite c = true := by
    intro c hc
    exact h2 c (List.mem_reverse.mpr hc)
  intro c hc
  have hsplit := List.takeWhile_append_dropWhile jsIsWhite s
  rw [← hsplit] at hc
  rcases List.mem_append.mp hc with hm | hm
  · exact List.mem_takeWhile_imp hm
  · exact h3 c hm

theorem isWordChar_not_white (c : Char) (h : isWordChar c = true) :
    ¬ jsIsWhite c = true := by
  intro hw
  unfold isWordChar at h
  unfold jsIsWhite at hw
  simp only [Bool.or_eq_true, Bool.and_eq_true, decide_eq_true_eq] at h hw
  omega

theorem dropWhile_head_prop {p : Char → Bool} : ∀ (l : Str) (b : Char) (t : Str),
    l.dropWhile p = b :: t → p b = false := by
  intro l
  induction l with
  | nil =>
    intro b t h
    simp [List.dropWhile] at h
  | cons c cs ih =>
    intro b t h
    by_cases hc : p c = true
    · rw [List.dropWhile_cons_of_pos hc] at h
      exact ih b t h
    · rw [List.dropWhile_cons_of_neg hc] at h
      have hb : c = b := (List.cons.inj h).1
      subst hb
      exact Bool.eq_false_iff.mpr hc

theorem jsMatchWordPunct_core {word core punct : Str}
    (h : jsMatchWordPunct word = some (core, punct)) :
    ∃ c cs, core = c :: cs ∧ isWordChar c = true := by
  unfold jsMatchWordPunct at h
  cases hd : word.dropWhile (fun c => !isWordChar c) with
  | nil => rw [hd] at h; simp at h
  | cons r rest =>
    rw [hd] at h
    simp only [Option.some.injEq, Prod.mk.injEq] at h
    have hr : isWordChar r = true := by
      have hp := dropWhile_head_prop word r rest hd
      simpa using hp
    refine ⟨r, rest.takeWhile isWordChar, ?_, hr⟩
    rw [← h.1]
    rw [List.takeWhile_cons_of_pos hr]

theorem sliceChars_get (content : Str) (a b j : Nat) (hj : j < b - a) :
    (sliceChars content a b).get? j = content.get? (a + j) := by
  unfold sliceChars
  rw [List.get?_take hj, List.get?_drop]

theorem sectionProcess_isSome (content : Str) (split : Str → List Str)
    (sec : HlSection) (w : Nat) (core punct word : Str)
    (hsec : sec ∈ findSections content)
    (hw1 : sec.startIdx + 3 ≤ w) (hw2 : w < sec.endIdx - 3)
    (hcore : core.isPrefixOf (content.drop w) = true)
    (hcw : ∃ c cs, core = c :: cs ∧ isWordChar c = true)
    (hsplit : ∀ s, s ≠ [] → split s ≠ []) :
    (sectionProcess content split sec w core punct word).isSome := by
  cases hsp : split sec.text with
  | cons h0 t0 =>
    simp only [sectionProcess, hsp]
    split_ifs <;> simp
  | nil =>
    exfalso
    have htext : sec.text = [] := by
      by_contra hne
      exact (hsplit sec.text hne) hsp
    obtain ⟨e, hend, _hpre_s, _hpre_e, hse, hel, htexteq⟩ :=
      findSectionsFuel_inv content _ _ sec hsec
    have hwhite := jsTrim_eq_nil _ (htexteq ▸ htext)
    obtain ⟨c, cs, hc, hcwc⟩ := hcw
    have hgw : content.get? w = some c := by
      have hg := get_of_isPrefixOf hcore 0 (by rw [hc]; simp)
      rw [Nat.add_zero] at hg
      rw [hg, hc]
      rfl
    have hwe : w < e := by omega
    have hinner : (sliceChars content (sec.startIdx + 3) e).get?
        (w - (sec.startIdx + 3)) = content.get? w := by
      rw [sliceChars_get content (sec.startIdx + 3) e _ (by omega)]
      congr 1
      omega
    have hmem : c ∈ sliceChars content (sec.startIdx + 3) e :=
      List.get?_mem (by rw [hinner, hgw])
    exact isWordChar_not_white c hcwc (hwhite c hmem)

theorem addHighlightsStep_isSome (content : Str) (split : Str → List Str)
    (hsplit : ∀ s, s ≠ [] → split s ≠ []) (cur : Nat) (word : Str) :
    (addHighlightsStep content (findSections content) split cur word).isSome := by
  cases hm : jsMatchWordPunct word with
  | none => simp [addHighlightsStep, hm]
  | some cp =>
    obtain ⟨core, punct⟩ := cp
    cases hf : findIdxFrom core content cur with
    | none => simp [addHighlightsStep, hm, hf]
    | some w =>
      cases hfind : (findSections content).find? (fun sec =>
          decide (sec.startIdx + 3 ≤ w) && decide (w < sec.endIdx - 3)) with
      | none => simp [addHighlightsStep, hm, hf, hfind]
      | some sec =>
        have hmem := List.mem_of_find?_eq_some hfind
        have hpred := List.find?_some hfind
        simp only [Bool.and_eq_true, decide_eq_true_eq] at hpred
        have hne : core ≠ [] := by
          obtain ⟨c, cs, hc, _⟩ := jsMatchWordPunct_core hm
          simp [hc]
        have hcore : core.isPrefixOf (content.drop w) = true :=
          (findIdxFrom_spec core content cur w hne hf).2.1
        have hps := sectionProcess_isSome content split sec w core punct word hmem
          hpred.1 hpred.2 hcore (jsMatchWordPunct_core hm) hsplit
        simp only [addHighlightsStep, hm, hf, hfind]
        cases hsp : sectionProcess content split sec w core punct word with
        | none => rw [hsp] at hps; simp at hps
        | some tok => simp [hsp]

theorem addHighlightsLoop_spec (content : Str) (split : Str → List Str)
    (hsplit : ∀ s, s ≠ [] → split s ≠ []) :
    ∀ (words : List Str) (cur : Nat) (acc : List Str),
      ∃ r, addHighlightsLoop content (findSections content) split words cur acc =
          some r ∧ r.length = acc.length + words.length := by
  intro words
  induction words with
  | nil =>
    intro cur acc
    exact ⟨acc.reverse, rfl, by simp⟩
  | cons word rest ih =>
    intro cur acc
    have hs := addHighlightsStep_isSome content split hsplit cur word
    obtain ⟨⟨tok, cur2⟩, hstep⟩ := Option.isSome_iff_exists.mp hs
    obtain ⟨r, hr, hlen⟩ := ih cur2 (tok :: acc)
    refine ⟨r, ?_, ?_⟩
    · unfold addHighlightsLoop
      rw [hstep]
      exact hr
    · simp only [List.length_cons] at hlen ⊢
      omega

/-- C10: for every original content string, token list and word-break mode
(the per-mode tokenizer `split` satisfying the real tokenizers' guarantee of
producing at least one token for nonempty text), `addHighlights` returns
normally with an output of exactly the same length as the input token list:
every iteration of the token loop emits exactly one output token on every
branch. -/
theorem addHighlights_length (split : Str → List Str) (originalContent : Str)
    (words : List Str) (hsplit : ∀ s, s ≠ [] → split s ≠ []) :
    ∃ r, addHighlights split originalContent words = some r ∧
      r.length = words.length := by
  obtain ⟨r, hr, hlen⟩ :=
    addHighlightsLoop_spec originalContent split hsplit words 0 []
  exact ⟨r, hr, by simpa using hlen⟩

/-- Witness for C10 on `"ab[s]cd[e]"` with the two-token input. -/
theorem addHighlights_length_witness :
    ∃ r, addHighlights (fun s => [s]) "ab[s]cd[e]".data ["ab".data, "cd".data] =
        some r ∧ r.length = (["ab".data, "cd".data] : List Str).length :=
  addHighlights_length (fun s => [s]) "ab[s]cd[e]".data ["ab".data, "cd".data]
    (fun s _ => by simp)

end Satori
